import Mathlib

/-!
Shallow embedding of the hybrid retrieval core of `rag_agent/vector_search`:

* `hybrid_retriever.py` — the fusion stage of `HybridRetriever._retrieve`
  (weighting, concatenation, dict-based deduplication);
* `reranker.py` — `Reranker.rerank` (batched pairwise scoring, stable
  descending sort, top-k truncation);
* `utils.py` — `evaluate_retrieval` (precision / recall).

Python floats are modelled as rationals (ℚ), nullable values as `Option`,
and the `TypeError` that `float(None)` raises as `Except.error`.  The
external cross-encoder scorer is a parameter `predict`; `rerank` also
returns the list of batches `predict` was invoked on, so that claims about
the number of scorer calls are statable.
-/

attribute [local semireducible] List.mergeSort List.merge Rat.mul Rat.inv

/-- A retrieval candidate, the shape of a LlamaIndex `NodeWithScore` as the
core uses it: stable `id` (`node_id`), `text`, nullable `score`, and an open
string-keyed `metadata` mapping that the core passes through untouched. -/
structure Candidate where
  id : String
  text : String
  score : Option ℚ
  metadata : List (String × String)
  deriving DecidableEq, Repr

/-- `hybrid_retriever.py` lines 81 and 84:
`node.score = (node.score * weight) if node.score is not None else 0.0` —
the weighting that `_retrieve` applies in place to each node of a result
list before combining. -/
def applyWeight (w : ℚ) (n : Candidate) : Candidate :=
  { n with
    score :=
      match n.score with
      | some s => some (s * w)
      | none => some 0 }

/-- One step of the dict comprehension
`{node.node_id: node for node in combined_results}` (line 89) on an
insertion-ordered association list: if the key is already present, the
first entry with that key has its value overwritten in place; otherwise a
new entry is appended.  This is exactly Python dict insertion order. -/
def upsert : List (String × Candidate) → Candidate → List (String × Candidate)
  | [], n => [(n.id, n)]
  | p :: t, n => if p.1 = n.id then (p.1, n) :: t else p :: upsert t n

/-- The fusion stage of `HybridRetriever._retrieve` (lines 79-90).  The
result is `(combined_nodes, vector_results', bm25_results')`: the fused,
deduplicated list handed to the reranker, together with the post-states of
the two input lists — the Python code mutates each node's `score` in
place, so the candidates held by the input sequences are the weighted
ones afterwards. -/
def fuseStage (vector_results bm25_results : List Candidate)
    (vector_weight bm25_weight : ℚ) :
    List Candidate × List Candidate × List Candidate :=
  let wv := vector_results.map (applyWeight vector_weight)
  let wb := bm25_results.map (applyWeight bm25_weight)
  let combined_results := wv ++ wb
  let unique_results := combined_results.foldl upsert []
  (unique_results.map Prod.snd, wv, wb)

/-- `combined_nodes` of `_retrieve` line 90: the fused candidate list. -/
def hybridFuse (vector_results bm25_results : List Candidate)
    (vector_weight bm25_weight : ℚ) : List Candidate :=
  (fuseStage vector_results bm25_results vector_weight bm25_weight).1

/-- The sort key of `reranker.py` line 67:
`x.score if x.score is not None else 0.0`. -/
def sortKey (n : Candidate) : ℚ :=
  match n.score with
  | some s => s
  | none => 0

/-- `sorted(nodes, key=lambda x: ..., reverse=True)` of line 67: Python's
`sorted` is a stable sort, and with `reverse=True` it keeps the original
relative order of elements whose keys are equal; this is the stable merge
sort under `le a b ↔ sortKey b ≤ sortKey a`. -/
def sortNodes (l : List Candidate) : List Candidate :=
  l.mergeSort (fun a b => decide (sortKey b ≤ sortKey a))

/-- Python's `float(x)` as used on line 63: succeeds on a number, raises
`TypeError` on `None`. -/
def pyFloat : Option ℚ → Except String ℚ
  | some s => Except.ok s
  | none =>
    Except.error "TypeError: float() argument must be a string or a real number, not NoneType"

/-- Lines 61-63: `for node, score in zip(nodes, scores): node.score =
float(score)`.  `zip` stops at the shorter list, so surplus nodes keep the
score they carried on input and surplus scores are ignored; `float` may
raise, in which case the loop aborts with that error. -/
def assignScores : List Candidate → List (Option ℚ) → Except String (List Candidate)
  | ns, [] => Except.ok ns
  | [], _ => Except.ok []
  | n :: ns, s :: ss =>
    match pyFloat s with
    | Except.error e => Except.error e
    | Except.ok f =>
      match assignScores ns ss with
      | Except.error e => Except.error e
      | Except.ok rest => Except.ok ({ n with score := some f } :: rest)

/-- The denotation of the zip loop when every predicted score is numeric:
overwrite the scores of the first `ss.length` nodes positionally, keep the
rest unchanged (see `assignScores_map_some`). -/
def overwrite : List Candidate → List ℚ → List Candidate
  | ns, [] => ns
  | [], _ => []
  | n :: ns, s :: ss => { n with score := some s } :: overwrite ns ss

/-- `Reranker.rerank` (reranker.py lines 32-74).  The cross-encoder is the
function `predict` from the batch of `(query, text)` pairs to predicted
scores (`none` modelling a Python `None` in the returned sequence).  The
first component is the returned list, or the uncaught exception; the
second component records the argument of every `predict` invocation, so
"`predict` is called exactly once on the whole batch" is the trace being a
one-element list. -/
def rerank (predict : List (String × String) → List (Option ℚ))
    (query : String) (nodes : List Candidate) (top_k : Nat) :
    Except String (List Candidate) × List (List (String × String)) :=
  if nodes.isEmpty then (Except.ok [], [])
  else
    let pairs := nodes.map (fun n => (query, n.text))
    let scores := predict pairs
    match assignScores nodes scores with
    | Except.error e => (Except.error e, [pairs])
    | Except.ok scored => (Except.ok ((sortNodes scored).take top_k), [pairs])

/-- `HybridRetriever._retrieve` lines 71-97 after the two retriever calls:
fuse the two result lists, then rerank the fused list with `top_k=5`. -/
def hybridRetrieve (predict : List (String × String) → List (Option ℚ))
    (query : String) (vector_results bm25_results : List Candidate)
    (vector_weight bm25_weight : ℚ) :
    Except String (List Candidate) × List (List (String × String)) :=
  rerank predict query
    (hybridFuse vector_results bm25_results vector_weight bm25_weight) 5

/-- A retrieved item as `evaluate_retrieval` sees it: `metadata` is `none`
when the item has no usable metadata (no `metadata` attribute, or the
attribute is Python `None` — the code's `hasattr`/`is not None` guard
treats both identically), otherwise the string-keyed mapping. -/
structure RetrievedDoc where
  metadata : Option (List (String × String))
  deriving DecidableEq, Repr

/-- The `{"precision": ..., "recall": ...}` dictionary returned by
`evaluate_retrieval`. -/
structure Metrics where
  precision : ℚ
  «recall» : ℚ
  deriving DecidableEq, Repr

/-- `utils.py` line 41: `[doc.metadata.get('doc_id') for doc in
retrieved_docs if hasattr(doc, 'metadata') and doc.metadata is not None]`.
Docs whose metadata is unusable are dropped by the guard; a doc whose
metadata lacks a `doc_id` key contributes Python `None`, modelled as a
`none` element of the resulting list. -/
def retrievedIds (retrieved_docs : List RetrievedDoc) : List (Option String) :=
  retrieved_docs.filterMap (fun d => d.metadata.map (fun m => m.lookup "doc_id"))

/-- `utils.py` line 45: `len(set(retrieved_ids) & set(relevant_doc_ids))`,
the number of distinct retrieved ids that occur among the relevant ids (a
`none` id never equals a relevant string id). -/
def relevantRetrievedCount (retrieved_ids : List (Option String))
    (relevant_doc_ids : List String) : Nat :=
  ((retrieved_ids.dedup).filter
    (fun x => (relevant_doc_ids.map Option.some).contains x)).length

/-- `evaluate_retrieval` (utils.py lines 16-54): precision over the number
of extracted retrieved ids, recall over the number of relevant ids, each
`0.0` when its denominator list is empty (Python's `... if retrieved_ids
else 0.0` truthiness test). -/
def evaluate_retrieval (query : String) (retrieved_docs : List RetrievedDoc)
    (relevant_doc_ids : List String) : Metrics :=
  let retrieved_ids := retrievedIds retrieved_docs
  let cnt := relevantRetrievedCount retrieved_ids relevant_doc_ids
  { precision :=
      if retrieved_ids.isEmpty then 0 else (cnt : ℚ) / retrieved_ids.length
    «recall» :=
      if relevant_doc_ids.isEmpty then 0
      else (cnt : ℚ) / relevant_doc_ids.length }

deriving instance DecidableEq for Except

/-! ### Concrete instances used by witnesses, counterexamples and the
spec's worked examples.  `candA`-`candD` carry the initial scores of the
repo's reranker test; `predictEx` is the scorer of the spec's worked
example (pairwise scores 0.9, 0.1, 0.7, 0.5). -/

def candA : Candidate := ⟨"a", "A", some (1/2), []⟩

def candB : Candidate := ⟨"b", "B", some (1/5), []⟩

def candC : Candidate := ⟨"c", "C", some (4/5), []⟩

def candD : Candidate := ⟨"d", "D", some (3/10), []⟩

def predictEx : List (String × String) → List (Option ℚ) :=
  fun _ => [some (9/10), some (1/10), some (7/10), some (5/10)]

/-- A candidate used (twice) as a duplicated rerank input. -/
def dupX : Candidate := ⟨"n1", "duplicated content", none, []⟩

/-- The three nodes of the repo test `test_rerank_score_is_none`. -/
def nodeS1 : Candidate := ⟨"s1", "Node 1", some (1/2), []⟩

def nodeS2 : Candidate := ⟨"s2", "Node 2", none, []⟩

def nodeS3 : Candidate := ⟨"s3", "Node 3", some (4/5), []⟩

/-- The scorer of `test_rerank_score_is_none`: returns `[0.9, None, 0.7]`. -/
def predictWithNone : List (String × String) → List (Option ℚ) :=
  fun _ => [some (9/10), none, some (7/10)]

/-- The five nodes of the repo test `test_retrieve_hybrid`: `nodeB5` shares
its id with `nodeV1`. -/
def nodeV1 : Candidate := ⟨"node1", "Node 1 content", some (8/10), []⟩

def nodeV2 : Candidate := ⟨"node2", "Node 2 content", some (6/10), []⟩

def nodeB3 : Candidate := ⟨"node3", "Node 3 content", some (9/10), []⟩

def nodeB4 : Candidate := ⟨"node4", "Node 4 content", some (7/10), []⟩

def nodeB5 : Candidate := ⟨"node1", "Node 5 content", some (1/2), []⟩

/-! ### Reranker lemmas -/

/-- On an all-numeric score list the zip loop cannot raise, and its result
is the positional overwrite. -/
theorem assignScores_map_some :
    ∀ (ns : List Candidate) (ss : List ℚ),
    assignScores ns (ss.map Option.some) = Except.ok (overwrite ns ss)
  | ns, [] => by cases ns <;> rfl
  | [], _ :: _ => rfl
  | n :: ns, s :: ss => by
    simp [assignScores, pyFloat, overwrite, assignScores_map_some ns ss]

/-- The zip loop overwrites the first `ss.length` candidates positionally
and leaves the remaining candidates untouched. -/
theorem overwrite_eq_zipWith_append :
    ∀ (ns : List Candidate) (ss : List ℚ),
    overwrite ns ss =
      List.zipWith (fun n s => { n with score := some s }) ns ss ++ ns.drop ss.length
  | ns, [] => by simp [overwrite]
  | [], _ :: _ => by simp [overwrite]
  | n :: ns, s :: ss => by
    simp [overwrite, overwrite_eq_zipWith_append ns ss]

theorem overwrite_length :
    ∀ (ns : List Candidate) (ss : List ℚ), (overwrite ns ss).length = ns.length
  | ns, [] => by cases ns <;> rfl
  | [], _ :: _ => rfl
  | n :: ns, s :: ss => by simp [overwrite, overwrite_length ns ss]

/-- With one score per candidate, every candidate's score is overwritten
with the corresponding predicted value. -/
theorem overwrite_map_score :
    ∀ (ns : List Candidate) (ss : List ℚ), ss.length = ns.length →
    (overwrite ns ss).map Candidate.score = ss.map Option.some
  | ns, [], h => by
    obtain rfl : ns = [] := List.length_eq_zero.mp h.symm
    rfl
  | [], _ :: _, h => by simp at h
  | n :: ns, s :: ss, h => by
    simp only [List.length_cons, Nat.succ.injEq] at h
    simp [overwrite, overwrite_map_score ns ss h]

theorem sortNodes_trans (a b c : Candidate) :
    decide (sortKey b ≤ sortKey a) → decide (sortKey c ≤ sortKey b) →
    decide (sortKey c ≤ sortKey a) := by
  simp only [decide_eq_true_eq]
  exact fun hab hbc => le_trans hbc hab

theorem sortNodes_total (a b : Candidate) :
    (decide (sortKey b ≤ sortKey a) || decide (sortKey a ≤ sortKey b)) = true := by
  simpa [Bool.or_eq_true, decide_eq_true_eq] using le_total (sortKey b) (sortKey a)

/-- The sort is a permutation of its input. -/
theorem sortNodes_perm (l : List Candidate) : (sortNodes l).Perm l :=
  List.mergeSort_perm l _

theorem sortNodes_length (l : List Candidate) : (sortNodes l).length = l.length :=
  (sortNodes_perm l).length_eq

/-- The sort is descending in `sortKey` (null scores comparing as 0). -/
theorem sortNodes_sorted (l : List Candidate) :
    (sortNodes l).Pairwise (fun a b => sortKey b ≤ sortKey a) := by
  have h := List.sorted_mergeSort sortNodes_trans sortNodes_total l
  exact h.imp (fun hab => decide_eq_true_eq.mp hab)

/-- Stability: two candidates already in descending-key order in the input
keep their relative order in the output; for candidates with equal keys
this is exactly "ties keep the pre-sort relative order". -/
theorem sortNodes_stable {a b : Candidate} {l : List Candidate}
    (hkey : sortKey b ≤ sortKey a) (hsub : [a, b].Sublist l) :
    [a, b].Sublist (sortNodes l) :=
  List.pair_sublist_mergeSort sortNodes_trans sortNodes_total
    (decide_eq_true hkey) hsub

theorem assignScores_ok_length :
    ∀ (ns : List Candidate) (ss : List (Option ℚ)) (out : List Candidate),
    assignScores ns ss = Except.ok out → out.length = ns.length
  | ns, [], out, h => by
    obtain rfl : ns = out := by simpa [assignScores] using h
    rfl
  | [], _ :: _, out, h => by
    obtain rfl : ([] : List Candidate) = out := by simpa [assignScores] using h
    rfl
  | n :: ns, s :: ss, out, h => by
    cases s with
    | none => simp [assignScores, pyFloat] at h
    | some f =>
      cases hrec : assignScores ns ss with
      | error e => simp [assignScores, pyFloat, hrec] at h
      | ok rest =>
        simp only [assignScores, pyFloat, hrec] at h
        obtain rfl : ({ n with score := some f } :: rest) = out := by simpa using h
        simp [assignScores_ok_length ns ss rest hrec]

/-- If none of the scores consumed by the zip is `None`, the loop cannot
raise. -/
theorem assignScores_isOk :
    ∀ (ns : List Candidate) (ss : List (Option ℚ)),
    Option.none ∉ ss.take ns.length →
    ∃ out, assignScores ns ss = Except.ok out
  | ns, [], _ => ⟨ns, by cases ns <;> rfl⟩
  | [], _ :: _, _ => ⟨[], rfl⟩
  | n :: ns, s :: ss, h => by
    rw [List.length_cons, List.take_succ_cons] at h
    cases s with
    | none => exact absurd (List.mem_cons_self _ _) h
    | some f =>
      obtain ⟨out, hout⟩ :=
        assignScores_isOk ns ss (fun hm => h (List.mem_cons_of_mem _ hm))
      exact ⟨{ n with score := some f } :: out, by
        simp [assignScores, pyFloat, hout]⟩

/-! ### Claims about the reranker -/

/-- Claim C4: on an empty candidate list, `rerank` returns the empty
sequence and the scorer is never invoked (the `predict`-invocation trace
is empty). -/
theorem C4_rerank_empty_short_circuit
    (predict : List (String × String) → List (Option ℚ))
    (query : String) (top_k : Nat) :
    rerank predict query [] top_k = (Except.ok [], []) := rfl

/-- Claim C2: for a non-empty candidate list whose batch the scorer scores
numerically, one score per pair, `rerank` (i) invokes `predict` exactly
once, on the (query, text) pairs in input order; (ii) returns the
score-overwritten candidates, stably sorted descending by score and
truncated to `top_k`; (iii) overwrites each candidate's score positionally
with the scorer's value; the sort output is a permutation of the
overwritten list, is descending in `sortKey`, and keeps the input order of
any pair already in descending-key order (hence of ties); and (iv) on the
worked example A,B,C,D with scores 0.9, 0.1, 0.7, 0.5 and `top_k = 3` it
returns A, C, D with scores 0.9, 0.7, 0.5. -/
theorem C2_rerank_batched_stable_sort
    (predict : List (String × String) → List (Option ℚ))
    (query : String) (nodes : List Candidate) (top_k : Nat) (ss : List ℚ)
    (hne : nodes ≠ [])
    (hpredict : predict (nodes.map (fun n => (query, n.text))) = ss.map Option.some)
    (hlen : ss.length = nodes.length) :
    (rerank predict query nodes top_k).2 = [nodes.map (fun n => (query, n.text))] ∧
    (rerank predict query nodes top_k).1 =
      Except.ok ((sortNodes (overwrite nodes ss)).take top_k) ∧
    overwrite nodes ss = List.zipWith (fun n s => { n with score := some s }) nodes ss ∧
    (overwrite nodes ss).map Candidate.score = ss.map Option.some ∧
    (sortNodes (overwrite nodes ss)).Perm (overwrite nodes ss) ∧
    (sortNodes (overwrite nodes ss)).Pairwise (fun a b => sortKey b ≤ sortKey a) ∧
    (∀ a b : Candidate, sortKey b ≤ sortKey a →
      [a, b].Sublist (overwrite nodes ss) →
      [a, b].Sublist (sortNodes (overwrite nodes ss))) ∧
    rerank predictEx "q" [candA, candB, candC, candD] 3 =
      (Except.ok [{ candA with score := some (9/10) },
                  { candC with score := some (7/10) },
                  { candD with score := some (5/10) }],
       [[("q", "A"), ("q", "B"), ("q", "C"), ("q", "D")]]) := by
  have hie : nodes.isEmpty = false := by
    cases nodes with
    | nil => exact absurd rfl hne
    | cons a t => rfl
  have hassign :
      assignScores nodes (predict (nodes.map (fun n => (query, n.text)))) =
        Except.ok (overwrite nodes ss) := by
    rw [hpredict]; exact assignScores_map_some nodes ss
  have hrk : rerank predict query nodes top_k =
      (Except.ok ((sortNodes (overwrite nodes ss)).take top_k),
       [nodes.map (fun n => (query, n.text))]) := by
    simp only [rerank, hie, Bool.false_eq_true, if_false, hassign]
  refine ⟨by rw [hrk], by rw [hrk], ?_,
    overwrite_map_score nodes ss hlen, sortNodes_perm _, sortNodes_sorted _,
    fun a b hk hs => sortNodes_stable hk hs, by decide⟩
  rw [overwrite_eq_zipWith_append nodes ss, hlen, List.drop_length,
    List.append_nil]

/-- Witness for C2 at the worked example. -/
theorem C2_rerank_batched_stable_sort_witness :
    (([candA, candB, candC, candD] : List Candidate) ≠ []) ∧
    (predictEx ([candA, candB, candC, candD].map (fun n => ("q", n.text))) =
      [(9:ℚ)/10, 1/10, 7/10, 5/10].map Option.some) ∧
    (([(9:ℚ)/10, 1/10, 7/10, 5/10] : List ℚ).length =
      [candA, candB, candC, candD].length) ∧
    ((rerank predictEx "q" [candA, candB, candC, candD] 3).2 =
      [[candA, candB, candC, candD].map (fun n => ("q", n.text))] ∧
    (rerank predictEx "q" [candA, candB, candC, candD] 3).1 =
      Except.ok ((sortNodes (overwrite [candA, candB, candC, candD]
        [9/10, 1/10, 7/10, 5/10])).take 3) ∧
    overwrite [candA, candB, candC, candD] [9/10, 1/10, 7/10, 5/10] =
      List.zipWith (fun n s => { n with score := some s })
        [candA, candB, candC, candD] [9/10, 1/10, 7/10, 5/10] ∧
    (overwrite [candA, candB, candC, candD] [9/10, 1/10, 7/10, 5/10]).map
      Candidate.score = [(9:ℚ)/10, 1/10, 7/10, 5/10].map Option.some ∧
    (sortNodes (overwrite [candA, candB, candC, candD]
      [9/10, 1/10, 7/10, 5/10])).Perm
      (overwrite [candA, candB, candC, candD] [9/10, 1/10, 7/10, 5/10]) ∧
    (sortNodes (overwrite [candA, candB, candC, candD]
      [9/10, 1/10, 7/10, 5/10])).Pairwise (fun a b => sortKey b ≤ sortKey a) ∧
    (∀ a b : Candidate, sortKey b ≤ sortKey a →
      [a, b].Sublist (overwrite [candA, candB, candC, candD]
        [9/10, 1/10, 7/10, 5/10]) →
      [a, b].Sublist (sortNodes (overwrite [candA, candB, candC, candD]
        [9/10, 1/10, 7/10, 5/10]))) ∧
    rerank predictEx "q" [candA, candB, candC, candD] 3 =
      (Except.ok [{ candA with score := some (9/10) },
                  { candC with score := some (7/10) },
                  { candD with score := some (5/10) }],
       [[("q", "A"), ("q", "B"), ("q", "C"), ("q", "D")]])) :=
  ⟨by decide, rfl, rfl,
   C2_rerank_batched_stable_sort predictEx "q" [candA, candB, candC, candD] 3
     [9/10, 1/10, 7/10, 5/10] (by decide) rfl rfl⟩

/-- Counterexample to claim C3: `rerank` performs no deduplication.  With
the same candidate listed twice (one unique candidate, whether uniqueness
is judged by value or by id) and `top_k = 5`, it returns a list of length
2, not `min 5 1 = 1`. -/
theorem C3_counterexample_no_dedup :
    (rerank (fun _ => [some 1, some 1]) "q" [dupX, dupX] 5).1 =
      Except.ok [{ dupX with score := some 1 }, { dupX with score := some 1 }] ∧
    ([dupX, dupX].dedup.length = 1) ∧
    (([dupX, dupX].map Candidate.id).dedup.length = 1) ∧
    (([{ dupX with score := some 1 }, { dupX with score := some 1 }] :
        List Candidate).length ≠ min 5 ([dupX, dupX].dedup.length)) := by
  exact ⟨by decide, by decide, by decide, by decide⟩

/-- Claim C3 (amended): provided the scorer returns no `None` among the
scores the zip consumes, `rerank` raises nothing and the length of its
output is `min top_k (number of input candidates)` — counted with
multiplicity, since `rerank` deduplicates nothing (uniqueness of its input
is the fusion stage's job); when `top_k ≥` the candidate count, all
candidates are returned, sorted descending. -/
theorem C3_rerank_length_min
    (predict : List (String × String) → List (Option ℚ))
    (query : String) (nodes : List Candidate) (top_k : Nat)
    (h : Option.none ∉ (predict (nodes.map (fun n => (query, n.text)))).take nodes.length) :
    ∃ scored,
      assignScores nodes (predict (nodes.map (fun n => (query, n.text)))) =
        Except.ok scored ∧
      (rerank predict query nodes top_k).1 =
        Except.ok ((sortNodes scored).take top_k) ∧
      ((sortNodes scored).take top_k).length = min top_k nodes.length ∧
      ((sortNodes scored).take top_k).Pairwise (fun a b => sortKey b ≤ sortKey a) ∧
      (nodes.length ≤ top_k →
        (sortNodes scored).take top_k = sortNodes scored ∧
        (sortNodes scored).Perm scored) := by
  obtain ⟨scored, hscored⟩ := assignScores_isOk nodes _ h
  have hlen : scored.length = nodes.length :=
    assignScores_ok_length nodes _ scored hscored
  have hrk : (rerank predict query nodes top_k).1 =
      Except.ok ((sortNodes scored).take top_k) := by
    cases hn : nodes with
    | nil =>
      subst hn
      have : scored = [] := by
        have h0 : (0 : Nat) = scored.length := hlen.symm
        exact (List.length_eq_zero.mp h0.symm)
      subst this
      simp [rerank, sortNodes]
    | cons a t =>
      subst hn
      simp only [rerank, List.isEmpty_cons, Bool.false_eq_true, if_false, hscored]
  refine ⟨scored, hscored, hrk, ?_, ?_, fun hle => ⟨?_, sortNodes_perm scored⟩⟩
  · rw [List.length_take, sortNodes_length, hlen]
  · exact List.Pairwise.sublist (List.take_sublist _ _) (sortNodes_sorted scored)
  · exact List.take_of_length_le (by rw [sortNodes_length, hlen]; exact hle)

/-- Witness for C3 (amended) on two candidates with `top_k = 5`. -/
theorem C3_rerank_length_min_witness :
    (Option.none ∉ ((fun _ => [some ((1:ℚ)/10), some (3/5)])
        ([candA, candB].map (fun n => ("q", n.text)))).take [candA, candB].length) ∧
    (∃ scored,
      assignScores [candA, candB]
          ((fun _ => [some ((1:ℚ)/10), some (3/5)])
            ([candA, candB].map (fun n => ("q", n.text)))) = Except.ok scored ∧
      (rerank (fun _ => [some ((1:ℚ)/10), some (3/5)]) "q" [candA, candB] 5).1 =
        Except.ok ((sortNodes scored).take 5) ∧
      ((sortNodes scored).take 5).length = min 5 [candA, candB].length ∧
      ((sortNodes scored).take 5).Pairwise (fun a b => sortKey b ≤ sortKey a) ∧
      ([candA, candB].length ≤ 5 →
        (sortNodes scored).take 5 = sortNodes scored ∧
        (sortNodes scored).Perm scored)) :=
  ⟨by decide,
   C3_rerank_length_min (fun _ => [some ((1:ℚ)/10), some (3/5)]) "q"
     [candA, candB] 5 (by decide)⟩

/-- Claim C5 (code bug): replaying the repo's own test
`test_rerank_score_is_none` (the scorer returns `[0.9, None, 0.7]` for
three candidates), the embedded code raises
`TypeError` at `float(None)` — after having invoked the scorer on the full
batch — instead of storing `None`, sorting it as 0.0 and returning it, as
both the claim and that test expect. -/
theorem C5_scorer_none_raises :
    (rerank predictWithNone "test query" [nodeS1, nodeS2, nodeS3] 3).1 =
      Except.error
        "TypeError: float() argument must be a string or a real number, not NoneType" ∧
    (rerank predictWithNone "test query" [nodeS1, nodeS2, nodeS3] 3).2 =
      [[("test query", "Node 1"), ("test query", "Node 2"),
        ("test query", "Node 3")]] := by
  exact ⟨by decide, by decide⟩

/-- Claim C10: when the scorer returns fewer (numeric) scores than there
are candidates, `rerank` performs no length validation and raises nothing:
the zip overwrites the scores of the first `ss.length` candidates, the
remaining candidates keep the score they carried on input (the `++ drop`
decomposition), and all `nodes.length` candidates still participate in the
sort and the `top_k` truncation. -/
theorem C10_short_scores_keep_rest
    (predict : List (String × String) → List (Option ℚ))
    (query : String) (nodes : List Candidate) (top_k : Nat) (ss : List ℚ)
    (hpredict : predict (nodes.map (fun n => (query, n.text))) = ss.map Option.some)
    (hlt : ss.length < nodes.length) :
    (rerank predict query nodes top_k).1 =
      Except.ok ((sortNodes (overwrite nodes ss)).take top_k) ∧
    (rerank predict query nodes top_k).2 = [nodes.map (fun n => (query, n.text))] ∧
    overwrite nodes ss =
      List.zipWith (fun n s => { n with score := some s }) nodes ss ++
        nodes.drop ss.length ∧
    (overwrite nodes ss).length = nodes.length ∧
    (sortNodes (overwrite nodes ss)).Perm (overwrite nodes ss) := by
  have hne : nodes ≠ [] := by
    intro h
    subst h
    simp at hlt
  have hie : nodes.isEmpty = false := by
    cases nodes with
    | nil => exact absurd rfl hne
    | cons a t => rfl
  have hassign :
      assignScores nodes (predict (nodes.map (fun n => (query, n.text)))) =
        Except.ok (overwrite nodes ss) := by
    rw [hpredict]; exact assignScores_map_some nodes ss
  have hrk : rerank predict query nodes top_k =
      (Except.ok ((sortNodes (overwrite nodes ss)).take top_k),
       [nodes.map (fun n => (query, n.text))]) := by
    simp only [rerank, hie, Bool.false_eq_true, if_false, hassign]
  exact ⟨by rw [hrk], by rw [hrk], overwrite_eq_zipWith_append nodes ss,
    overwrite_length nodes ss, sortNodes_perm _⟩

/-- Witness for C10: one score for two candidates — `candA` is overwritten
to 0.1, `candD` keeps its input score 0.3 and still takes part in the
sort. -/
theorem C10_short_scores_keep_rest_witness :
    ((fun _ => [some ((1:ℚ)/10)])
        ([candA, candD].map (fun n => ("q", n.text))) =
      [(1:ℚ)/10].map Option.some) ∧
    ([(1:ℚ)/10].length < [candA, candD].length) ∧
    ((rerank (fun _ => [some ((1:ℚ)/10)]) "q" [candA, candD] 5).1 =
      Except.ok ((sortNodes (overwrite [candA, candD] [1/10])).take 5) ∧
    (rerank (fun _ => [some ((1:ℚ)/10)]) "q" [candA, candD] 5).2 =
      [[candA, candD].map (fun n => ("q", n.text))] ∧
    overwrite [candA, candD] [1/10] =
      List.zipWith (fun n s => { n with score := some s }) [candA, candD] [1/10] ++
        [candA, candD].drop [(1:ℚ)/10].length ∧
    (overwrite [candA, candD] [1/10]).length = [candA, candD].length ∧
    (sortNodes (overwrite [candA, candD] [1/10])).Perm
      (overwrite [candA, candD] [1/10])) :=
  ⟨rfl, by decide,
   C10_short_scores_keep_rest (fun _ => [some ((1:ℚ)/10)]) "q" [candA, candD] 5
     [1/10] rfl (by decide)⟩

/-! ### Fusion lemmas -/

theorem applyWeight_id (w : ℚ) (n : Candidate) : (applyWeight w n).id = n.id := rfl

theorem applyWeight_text (w : ℚ) (n : Candidate) :
    (applyWeight w n).text = n.text := rfl

theorem applyWeight_metadata (w : ℚ) (n : Candidate) :
    (applyWeight w n).metadata = n.metadata := rfl

/-- The weighted score in one formula: `(score ?? 0) * weight`. -/
theorem applyWeight_score (w : ℚ) (n : Candidate) :
    (applyWeight w n).score = some (n.score.getD 0 * w) := by
  cases h : n.score with
  | none => simp [applyWeight, h]
  | some s => simp [applyWeight, h]

/-- Dict update: looking up `k` after inserting `n` yields `n` when
`k = n.id` and is otherwise unchanged. -/
theorem lookup_upsert (acc : List (String × Candidate)) (n : Candidate) (k : String) :
    (upsert acc n).lookup k = if k = n.id then some n else acc.lookup k := by
  induction acc with
  | nil =>
    by_cases hk : k = n.id
    · subst hk
      simp [upsert]
    · simp [upsert, List.lookup_cons, beq_false_of_ne hk, hk]
  | cons p t ih =>
    obtain ⟨a, b⟩ := p
    by_cases ha : a = n.id
    · by_cases hk : k = a
      · simp [upsert, ha, List.lookup_cons, beq_iff_eq.mpr hk, hk.trans ha]
      · have hkn : ¬ k = n.id := fun h => hk (h.trans ha.symm)
        simp [upsert, ha, List.lookup_cons, beq_false_of_ne hkn, hkn]
    · by_cases hk : k = a
      · have hkn : ¬ k = n.id := fun h => ha (hk.symm.trans h)
        simp [upsert, ha, List.lookup_cons, beq_iff_eq.mpr hk, hkn]
      · simp [upsert, ha, List.lookup_cons, beq_false_of_ne hk, ih]

/-- Folding the dict over a candidate list realizes last-write-wins:
looking up `k` finds the last list element with that id, else falls back
to the accumulator. -/
theorem lookup_foldl_upsert :
    ∀ (l : List Candidate) (acc : List (String × Candidate)) (k : String),
    (l.foldl upsert acc).lookup k =
      ((l.reverse.find? (fun n => n.id == k)).or (acc.lookup k))
  | [], acc, k => by simp
  | n :: t, acc, k => by
    rw [List.foldl_cons, lookup_foldl_upsert t (upsert acc n) k, lookup_upsert,
      List.reverse_cons, List.find?_append, Option.or_assoc]
    congr 1
    by_cases hk : k = n.id
    · subst hk
      simp
    · simp [List.find?_singleton, beq_false_of_ne (Ne.symm hk), hk]

theorem keys_upsert (acc : List (String × Candidate)) (n : Candidate) :
    (upsert acc n).map Prod.fst =
      if n.id ∈ acc.map Prod.fst then acc.map Prod.fst
      else acc.map Prod.fst ++ [n.id] := by
  induction acc with
  | nil => simp [upsert]
  | cons p t ih =>
    obtain ⟨a, b⟩ := p
    by_cases ha : a = n.id
    · simp [upsert, ha]
    · by_cases hm : n.id ∈ t.map Prod.fst <;>
        simp [upsert, ha, ih, hm, Ne.symm ha]

/-- The dict's keys stay duplicate-free. -/
theorem keys_nodup_foldl_upsert :
    ∀ (l : List Candidate) (acc : List (String × Candidate)),
    ((acc.map Prod.fst).Nodup) → (((l.foldl upsert acc).map Prod.fst).Nodup)
  | [], _, h => h
  | n :: t, acc, h => by
    refine keys_nodup_foldl_upsert t (upsert acc n) ?_
    rw [keys_upsert]
    by_cases hm : n.id ∈ acc.map Prod.fst
    · simpa [hm] using h
    · simp [hm, h, List.nodup_append]

/-- Every element of the updated dict is the new entry or an old one. -/
theorem mem_upsert (acc : List (String × Candidate)) (n : Candidate)
    (p : String × Candidate) :
    p ∈ upsert acc n → p = (n.id, n) ∨ p ∈ acc := by
  induction acc with
  | nil =>
    intro hp
    simp only [upsert, List.mem_singleton] at hp
    exact Or.inl hp
  | cons q t ih =>
    intro hp
    by_cases hq : q.1 = n.id
    · simp only [upsert, if_pos hq, List.mem_cons] at hp
      rcases hp with rfl | hp
      · exact Or.inl (by rw [hq])
      · exact Or.inr (List.mem_cons_of_mem _ hp)
    · simp only [upsert, if_neg hq, List.mem_cons] at hp
      rcases hp with rfl | hp
      · exact Or.inr (List.mem_cons_self _ _)
      · rcases ih hp with h | h
        · exact Or.inl h
        · exact Or.inr (List.mem_cons_of_mem _ h)

/-- Every dict entry's stored candidate carries the entry's key as id. -/
theorem snd_id_foldl_upsert :
    ∀ (l : List Candidate) (acc : List (String × Candidate)),
    (∀ p ∈ acc, (p : String × Candidate).2.id = p.1) →
    ∀ p ∈ l.foldl upsert acc, (p : String × Candidate).2.id = p.1
  | [], _, h => h
  | n :: t, acc, h => by
    refine snd_id_foldl_upsert t (upsert acc n) ?_
    intro p hp
    rcases mem_upsert acc n p hp with rfl | hmem
    · rfl
    · exact h p hmem

theorem lookup_of_mem_nodup :
    ∀ (al : List (String × Candidate)) (k : String) (c : Candidate),
    ((al.map Prod.fst).Nodup) → (k, c) ∈ al → al.lookup k = some c := by
  intro al
  induction al with
  | nil => intro k c _ hm; cases hm
  | cons p t ih =>
    obtain ⟨a, b⟩ := p
    intro k c hnd hm
    rcases List.mem_cons.mp hm with heq | ht
    · obtain ⟨rfl, rfl⟩ : k = a ∧ c = b := by simpa [Prod.ext_iff] using heq
      exact List.lookup_cons_self
    · have hk : k ≠ a := by
        intro h
        subst h
        exact (List.nodup_cons.mp (by simpa using hnd)).1
          (List.mem_map_of_mem Prod.fst ht)
      rw [List.lookup_cons]
      simp only [beq_false_of_ne hk]
      exact ih k c (List.nodup_cons.mp (by simpa using hnd)).2 ht

theorem mem_of_lookup (al : List (String × Candidate)) (k : String) (c : Candidate)
    (h : al.lookup k = some c) : (k, c) ∈ al := by
  obtain ⟨l₁, l₂, rfl, -⟩ := List.lookup_eq_some_iff.mp h
  exact List.mem_append_right _ (List.mem_cons_self _ _)

/-- In a list with duplicate-free ids, `find?` by id finds exactly the
member with that id. -/
theorem find?_id_eq_of_nodup :
    ∀ (L : List Candidate) (d : Candidate) (x : String),
    ((L.map Candidate.id).Nodup) → d ∈ L → d.id = x →
    L.find? (fun n => n.id == x) = some d := by
  intro L
  induction L with
  | nil => intro d x _ hm; cases hm
  | cons h t ih =>
    intro d x hnd hm hdx
    rcases List.mem_cons.mp hm with rfl | ht
    · exact List.find?_cons_of_pos _ (by simp [hdx])
    · have hhx : h.id ≠ x := by
        intro he
        have hmem : d.id ∈ t.map Candidate.id := List.mem_map_of_mem _ ht
        rw [hdx, ← he] at hmem
        exact (List.nodup_cons.mp (by simpa using hnd)).1 hmem
      rw [List.find?_cons_of_neg _ (by simp [hhx])]
      exact ih d x (List.nodup_cons.mp (by simpa using hnd)).2 ht hdx

theorem find?_id_eq_none (L : List Candidate) (x : String)
    (h : x ∉ L.map Candidate.id) :
    L.find? (fun n => n.id == x) = none := by
  refine List.find?_eq_none.mpr (fun a ha hp => h ?_)
  have hax : a.id = x := beq_iff_eq.mp (by simpa using hp)
  exact hax ▸ List.mem_map_of_mem Candidate.id ha

theorem ids_map_applyWeight (w : ℚ) (l : List Candidate) :
    (l.map (applyWeight w)).map Candidate.id = l.map Candidate.id := by
  rw [List.map_map]; rfl

/-- Looking the fused dict up decomposes over the two weighted inputs,
sparse (bm25) side first — it was merged later, so it wins. -/
theorem hybridFuse_lookup (v b : List Candidate) (vw bw : ℚ) (k : String) :
    ((v.map (applyWeight vw) ++ b.map (applyWeight bw)).foldl upsert []).lookup k =
      (((b.map (applyWeight bw)).reverse.find? (fun n => n.id == k)).or
        ((v.map (applyWeight vw)).reverse.find? (fun n => n.id == k))) := by
  rw [lookup_foldl_upsert, List.lookup_nil, Option.or_none, List.reverse_append,
    List.find?_append]

theorem mem_hybridFuse_of_lookup (v b : List Candidate) (vw bw : ℚ) (k : String)
    (c : Candidate)
    (h : ((v.map (applyWeight vw) ++ b.map (applyWeight bw)).foldl upsert []).lookup k =
      some c) :
    c ∈ hybridFuse v b vw bw :=
  List.mem_map_of_mem Prod.snd (mem_of_lookup _ _ _ h)

/-- The fused list never contains two candidates with the same id. -/
theorem hybridFuse_ids_nodup (v b : List Candidate) (vw bw : ℚ) :
    ((hybridFuse v b vw bw).map Candidate.id).Nodup := by
  have hsnd := snd_id_foldl_upsert
    (v.map (applyWeight vw) ++ b.map (applyWeight bw)) [] (by intro p hp; cases hp)
  have hkeys := keys_nodup_foldl_upsert
    (v.map (applyWeight vw) ++ b.map (applyWeight bw)) [] (by simp)
  have hcongr : (hybridFuse v b vw bw).map Candidate.id =
      ((v.map (applyWeight vw) ++ b.map (applyWeight bw)).foldl upsert []).map
        Prod.fst := by
    show (((v.map (applyWeight vw) ++ b.map (applyWeight bw)).foldl upsert []).map
      Prod.snd).map Candidate.id = _
    rw [List.map_map]
    exact List.map_congr_left (fun p hp => hsnd p hp)
  rw [hcongr]
  exact hkeys

/-- At most one fused candidate has a given id, namely the one the dict
stores under it. -/
theorem hybridFuse_unique_of_lookup (v b : List Candidate) (vw bw : ℚ)
    (x : String) (cd : Candidate)
    (h : ((v.map (applyWeight vw) ++ b.map (applyWeight bw)).foldl upsert []).lookup x =
      some cd) :
    ∀ c ∈ hybridFuse v b vw bw, c.id = x → c = cd := by
  intro c hc hcx
  obtain ⟨p, hp, hpc⟩ := List.mem_map.mp hc
  have hp1 : p.1 = x := by
    have hid := snd_id_foldl_upsert
      (v.map (applyWeight vw) ++ b.map (applyWeight bw)) []
      (by intro q hq; cases hq) p hp
    rw [← hid, hpc, hcx]
  have hkeys := keys_nodup_foldl_upsert
    (v.map (applyWeight vw) ++ b.map (applyWeight bw)) [] (by simp)
  have hlc : ((v.map (applyWeight vw) ++ b.map (applyWeight bw)).foldl upsert
      []).lookup x = some c := by
    apply lookup_of_mem_nodup _ _ _ hkeys
    have hpx : p = (x, c) := Prod.ext hp1 hpc
    rw [← hpx]
    exact hp
  exact (Option.some.inj (h.symm.trans hlc)).symm

/-! ### Claims about the fusion merge -/

/-- Claim C1: the fused set deduplicates by id — its id list is
duplicate-free — and an id appearing in the sparse (bm25) results is
stored as the weighted sparse candidate: its fused score is
`sparseScore * sparseWeight`, and the whole dense entry (score included)
has been replaced by the sparse one, which is the unique fused candidate
with that id.  (The sparse result list is assumed duplicate-free in ids,
as one ranker emits each document once.) -/
theorem C1_fusion_dedup_sparse_overwrites
    (v b : List Candidate) (vw bw : ℚ)
    (hvw : 0 ≤ vw) (hbw : 0 ≤ bw)
    (x : String) (d : Candidate) (s : ℚ)
    (hx : x ∈ v.map Candidate.id)
    (hd : d ∈ b) (hdx : d.id = x) (hds : d.score = some s)
    (hnd : (b.map Candidate.id).Nodup) :
    ((hybridFuse v b vw bw).map Candidate.id).Nodup ∧
    applyWeight bw d ∈ hybridFuse v b vw bw ∧
    (applyWeight bw d).score = some (s * bw) ∧
    (∀ c ∈ hybridFuse v b vw bw, c.id = x → c = applyWeight bw d) := by
  have hlook : ((v.map (applyWeight vw) ++ b.map (applyWeight bw)).foldl upsert
      []).lookup x = some (applyWeight bw d) := by
    rw [hybridFuse_lookup]
    have hbn : (((b.map (applyWeight bw)).reverse).map Candidate.id).Nodup := by
      rw [List.map_reverse, ids_map_applyWeight]
      exact List.nodup_reverse.mpr hnd
    have hfind : ((b.map (applyWeight bw)).reverse).find? (fun n => n.id == x) =
        some (applyWeight bw d) :=
      find?_id_eq_of_nodup _ (applyWeight bw d) x hbn
        (by rw [List.mem_reverse]; exact List.mem_map_of_mem _ hd)
        (by rw [applyWeight_id, hdx])
    rw [hfind, Option.or_some]
  exact ⟨hybridFuse_ids_nodup v b vw bw,
    mem_hybridFuse_of_lookup v b vw bw x _ hlook,
    by simp [applyWeight, hds],
    hybridFuse_unique_of_lookup v b vw bw x _ hlook⟩

/-- Witness for C1 on the repo test's five nodes: id "node1" appears in
both lists; the fused entry is the weighted bm25 node with score
`0.5 * 0.3 = 0.15`. -/
theorem C1_fusion_dedup_sparse_overwrites_witness :
    ((0 : ℚ) ≤ 7/10) ∧ ((0 : ℚ) ≤ 3/10) ∧
    ("node1" ∈ [nodeV1, nodeV2].map Candidate.id) ∧
    (nodeB5 ∈ [nodeB3, nodeB4, nodeB5]) ∧
    (nodeB5.id = "node1") ∧ (nodeB5.score = some (1/2)) ∧
    (([nodeB3, nodeB4, nodeB5].map Candidate.id).Nodup) ∧
    (((hybridFuse [nodeV1, nodeV2] [nodeB3, nodeB4, nodeB5] (7/10) (3/10)).map
        Candidate.id).Nodup ∧
      applyWeight (3/10) nodeB5 ∈
        hybridFuse [nodeV1, nodeV2] [nodeB3, nodeB4, nodeB5] (7/10) (3/10) ∧
      (applyWeight (3/10) nodeB5).score = some ((1/2) * (3/10)) ∧
      (∀ c ∈ hybridFuse [nodeV1, nodeV2] [nodeB3, nodeB4, nodeB5] (7/10) (3/10),
        c.id = "node1" → c = applyWeight (3/10) nodeB5)) :=
  ⟨by decide, by decide, by decide, by decide, by decide, rfl, by decide,
   C1_fusion_dedup_sparse_overwrites [nodeV1, nodeV2] [nodeB3, nodeB4, nodeB5]
     (7/10) (3/10) (by decide) (by decide) "node1" nodeB5 (1/2)
     (by decide) (by decide) (by decide) rfl (by decide)⟩

/-- Claim C8: a candidate appearing only in the dense (vector) results,
with numeric score `s`, is fused as the weighted dense candidate with
score exactly `s * denseWeight` (our model computes in ℚ, so "within
1e-9" strengthens to exact equality), and it is the unique fused
candidate with its id; a null input score is treated as 0.0 before
weighting and the stored fused score is the weighted numeric value
`0 * w`, not null.  (The dense result list is assumed duplicate-free in
ids.) -/
theorem C8_dense_only_weighting
    (v b : List Candidate) (vw bw : ℚ) (c : Candidate) (s : ℚ)
    (hc : c ∈ v) (hcs : c.score = some s)
    (honly : c.id ∉ b.map Candidate.id)
    (hnd : (v.map Candidate.id).Nodup) :
    applyWeight vw c ∈ hybridFuse v b vw bw ∧
    (applyWeight vw c).score = some (s * vw) ∧
    (∀ e ∈ hybridFuse v b vw bw, e.id = c.id → e = applyWeight vw c) ∧
    (∀ (n : Candidate) (w : ℚ), n.score = none →
      (applyWeight w n).score = some (0 * w)) := by
  have hlook : ((v.map (applyWeight vw) ++ b.map (applyWeight bw)).foldl upsert
      []).lookup c.id = some (applyWeight vw c) := by
    rw [hybridFuse_lookup]
    have hbnone : ((b.map (applyWeight bw)).reverse).find?
        (fun n => n.id == c.id) = none := by
      apply find?_id_eq_none
      rw [List.map_reverse, ids_map_applyWeight]
      simpa [List.mem_reverse] using honly
    rw [hbnone, Option.none_or]
    exact find?_id_eq_of_nodup _ (applyWeight vw c) c.id
      (by rw [List.map_reverse, ids_map_applyWeight]; exact List.nodup_reverse.mpr hnd)
      (by rw [List.mem_reverse]; exact List.mem_map_of_mem _ hc)
      (applyWeight_id vw c)
  refine ⟨mem_hybridFuse_of_lookup v b vw bw c.id _ hlook,
    by simp [applyWeight, hcs],
    hybridFuse_unique_of_lookup v b vw bw c.id _ hlook,
    ?_⟩
  intro n w h
  simp [applyWeight, h, zero_mul]

/-- Witness for C8: "node2" appears only in the vector results with score
0.6; its fused score is `0.6 * 0.7 = 0.42`. -/
theorem C8_dense_only_weighting_witness :
    (nodeV2 ∈ [nodeV1, nodeV2]) ∧ (nodeV2.score = some (6/10)) ∧
    (nodeV2.id ∉ [nodeB3, nodeB4, nodeB5].map Candidate.id) ∧
    (([nodeV1, nodeV2].map Candidate.id).Nodup) ∧
    (applyWeight (7/10) nodeV2 ∈
        hybridFuse [nodeV1, nodeV2] [nodeB3, nodeB4, nodeB5] (7/10) (3/10) ∧
      (applyWeight (7/10) nodeV2).score = some ((6/10) * (7/10)) ∧
      (∀ e ∈ hybridFuse [nodeV1, nodeV2] [nodeB3, nodeB4, nodeB5] (7/10) (3/10),
        e.id = nodeV2.id → e = applyWeight (7/10) nodeV2) ∧
      (∀ (n : Candidate) (w : ℚ), n.score = none →
        (applyWeight w n).score = some (0 * w))) :=
  ⟨by decide, rfl, by decide, by decide,
   C8_dense_only_weighting [nodeV1, nodeV2] [nodeB3, nodeB4, nodeB5]
     (7/10) (3/10) nodeV2 (6/10) (by decide) rfl (by decide) (by decide)⟩

/-- Counterexample to claim C9: the merge is not free of effects on its
inputs — the weighting loops overwrite the score of every candidate held
by the input sequences.  After merging a single dense candidate with
score 1 under weight 0.7, the dense input sequence holds that candidate
with score 0.7, not 1. -/
theorem C9_counterexample_inputs_mutated :
    ((fuseStage [⟨"a", "T", some 1, []⟩] [] (7/10) (3/10)).2.1 ≠
      [⟨"a", "T", some 1, []⟩]) ∧
    ((fuseStage [⟨"a", "T", some 1, []⟩] [] (7/10) (3/10)).2.1 =
      [⟨"a", "T", some (7/10), []⟩]) := by
  exact ⟨by decide, by decide⟩

/-- Claim C9 (amended): the merge is deterministic (it is a pure function
of its inputs in this model) but it mutates the score field of every
candidate in both input sequences in place, overwriting it with the
weighted value `(score ?? 0) * weight`; the sequences' order, ids, texts
and metadata are unchanged. -/
theorem C9_merge_weights_in_place (v b : List Candidate) (vw bw : ℚ) :
    (fuseStage v b vw bw).2.1 = v.map (applyWeight vw) ∧
    (fuseStage v b vw bw).2.2 = b.map (applyWeight bw) ∧
    (fuseStage v b vw bw).2.1.map Candidate.id = v.map Candidate.id ∧
    (fuseStage v b vw bw).2.1.map Candidate.text = v.map Candidate.text ∧
    (fuseStage v b vw bw).2.1.map Candidate.metadata = v.map Candidate.metadata ∧
    (fuseStage v b vw bw).2.1.map Candidate.score =
      v.map (fun n => some (n.score.getD 0 * vw)) ∧
    (fuseStage v b vw bw).2.2.map Candidate.id = b.map Candidate.id ∧
    (fuseStage v b vw bw).2.2.map Candidate.text = b.map Candidate.text ∧
    (fuseStage v b vw bw).2.2.map Candidate.metadata = b.map Candidate.metadata ∧
    (fuseStage v b vw bw).2.2.map Candidate.score =
      b.map (fun n => some (n.score.getD 0 * bw)) := by
  refine ⟨rfl, rfl, ?_, ?_, ?_, ?_, ?_, ?_, ?_, ?_⟩ <;>
    simp [fuseStage, List.map_map, Function.comp, applyWeight_score] <;>
    intro a ha <;> rfl

/-! ### Evaluator lemmas and claims -/

/-- The code's count (`len(set(retrieved_ids) & set(relevant_doc_ids))`,
computed here as distinct retrieved ids occurring among the relevant ids)
is the cardinality of the set intersection of the claim's formula. -/
theorem relevantRetrievedCount_eq_inter_card
    (ids : List (Option String)) (rel : List String) :
    relevantRetrievedCount ids rel =
      (ids.toFinset ∩ (rel.map Option.some).toFinset).card := by
  classical
  rw [relevantRetrievedCount, ← Finset.filter_mem_eq_inter]
  have h1 : (ids.dedup.filter
      (fun x => (rel.map Option.some).contains x)).Nodup :=
    (List.nodup_dedup ids).filter _
  rw [← List.toFinset_card_of_nodup h1]
  congr 1
  have hdedup : (ids.dedup).toFinset = ids.toFinset := by
    ext x
    simp [List.mem_toFinset, List.mem_dedup]
  rw [List.toFinset_filter, hdedup]
  apply Finset.filter_congr
  intro x hx
  simp [List.mem_toFinset]

/-- Claim C6 (code bug): replaying the repo's own test
`test_evaluate_retrieval_missing_metadata` without the attribute-less doc
— a doc whose metadata lacks `doc_id` contributes a null id that stays in
the retrieved-id list and inflates the precision denominator: the code
yields precision 2/3 where the claim (and that test) require the doc to
be excluded, giving 2/2 = 1. -/
theorem C6_missing_docid_counted :
    evaluate_retrieval "test query"
      [⟨some [("doc_id", "doc1")]⟩, ⟨some []⟩, ⟨some [("doc_id", "doc2")]⟩]
      ["doc1", "doc2"] = ⟨2/3, 1⟩ ∧
    retrievedIds
      [⟨some [("doc_id", "doc1")]⟩, ⟨some []⟩, ⟨some [("doc_id", "doc2")]⟩] =
      [some "doc1", none, some "doc2"] ∧
    ((2 : ℚ)/3 ≠ 1) := by
  exact ⟨by decide, by decide, by decide⟩

/-- Claim C7: precision is `|retrievedIds ∩ relevantIds| / |retrievedIds|`
(set intersection in the numerator, count of extracted ids in the
denominator) and 0.0 on an empty retrieved-id list; recall is
`|retrievedIds ∩ relevantIds| / |relevantIds|` and 0.0 on an empty
relevant-id list; and the three boundary examples of the spec hold. -/
theorem C7_precision_recall_formulas
    (q : String) (docs : List RetrievedDoc) (rel : List String) :
    (evaluate_retrieval q docs rel).precision =
      (if retrievedIds docs = [] then 0 else
        (((retrievedIds docs).toFinset ∩ ((rel.map Option.some).toFinset)).card : ℚ) /
          (retrievedIds docs).length) ∧
    (evaluate_retrieval q docs rel).«recall» =
      (if rel = [] then 0 else
        (((retrievedIds docs).toFinset ∩ ((rel.map Option.some).toFinset)).card : ℚ) /
          rel.length) ∧
    evaluate_retrieval q [] ["x"] = ⟨0, 0⟩ ∧
    evaluate_retrieval q [⟨some [("doc_id", "x")]⟩] [] = ⟨0, 0⟩ ∧
    evaluate_retrieval q [⟨some [("doc_id", "x")]⟩] ["x"] = ⟨1, 1⟩ := by
  refine ⟨?_, ?_, rfl, rfl, rfl⟩
  · simp only [evaluate_retrieval, relevantRetrievedCount_eq_inter_card,
      List.isEmpty_iff]
  · simp only [evaluate_retrieval, relevantRetrievedCount_eq_inter_card,
      List.isEmpty_iff]
